import Mathlib

/-!
Verification development for the mfs feature-selection library.

The repository consists of a metrics module (discrete entropy,
conditional entropy, information gain and symmetrical uncertainty,
in the file Selection.py, class Metrics) and a selection engine
(class MFS) offering two algorithms: a correlation based best-first
forward search (cfs) and a fast correlation based filter (fcbs),
both driven by memoized symmetrical-uncertainty scores.

Modelling conventions:
a discrete data vector is a list over a type with decidable equality;
floating point numbers are modelled as real numbers; the selection
engine is embedded generically over a linear ordered field so that
concrete runs can also be evaluated over the rationals, and is
instantiated at the real numbers with the metric functions to obtain
the composite algorithms.  Python exceptions are modelled with Option
results (cfs) and with an error component returned next to the
unchanged state (fcbs).
-/

namespace Metrics

/-- Discrete Shannon entropy, translated from Metrics.entropy: empirical
frequencies of the distinct symbols of the vector, probabilities
equal to zero dropped, then the natural-log sum is converted to the
requested base.  On the empty vector every intermediate list is empty
and the function returns zero, mirroring the numpy computation where
an empty count array divided by a zero length stays empty and sums
to zero. -/
noncomputable def entropy {β : Type} [DecidableEq β] (y : List β) (base : ℝ) : ℝ :=
  (((y.dedup.map fun v => ((y.count v : ℝ)) / (y.length : ℝ)).filter
      fun p => decide ((0:ℝ) < p)).map fun p => p * Real.log (1 / p)).sum
    / Real.log base

/-- Conditional entropy, translated from Metrics.conditional_entropy:
entropy of the row-wise joint variable minus the entropy of the
conditioning variable. -/
noncomputable def conditional_entropy {β γ : Type} [DecidableEq β] [DecidableEq γ]
    (x : List β) (y : List γ) (base : ℝ) : ℝ :=
  entropy (x.zip y) base - entropy x base

/-- Information gain, translated from Metrics.information_gain. -/
noncomputable def information_gain {β γ : Type} [DecidableEq β] [DecidableEq γ]
    (x : List β) (y : List γ) (base : ℝ) : ℝ :=
  entropy y base - conditional_entropy x y base

/-- Symmetrical uncertainty, translated from
Metrics.symmetrical_uncertainty (all entropies taken at the default
base 2). -/
noncomputable def symmetrical_uncertainty {β γ : Type} [DecidableEq β] [DecidableEq γ]
    (x : List β) (y : List γ) : ℝ :=
  2 * information_gain x y 2 / (entropy x 2 + entropy y 2)

end Metrics

namespace MFS

/-- Error raised by the selection engine: fcbs raises an invalid
argument error (ValueError) for a threshold below 1e-4. -/
inductive MFSErr : Type
  | invalidThreshold : MFSErr
  deriving DecidableEq

/-- Memoization cache for pairwise symmetrical uncertainty scores: an
insertion-ordered association list mirroring the python dict
su_features. -/
abbrev Cache (α : Type) : Type := List ((ℕ × ℕ) × α)

/-- Association list lookup for the pairwise cache. -/
def cacheLookup {α : Type} : Cache α → (ℕ × ℕ) → Option α
  | [], _ => none
  | e :: es, k => if e.1 = k then some e.2 else cacheLookup es k

/-- Lookup-or-compute for a pairwise score, translated from the method
compute_su_features of MFS: on a miss the value is computed and
appended to the cache in insertion order. -/
def compute_su_features {α : Type} (suF : ℕ → ℕ → α) (c : Cache α) (a b : ℕ) :
    α × Cache α :=
  match cacheLookup c (a, b) with
  | some v => (v, c)
  | none => (suF a b, c ++ [((a, b), suF a b)])

/-- All unordered pairs of a candidate list, in the order produced by
itertools.combinations(features, 2). -/
def pairsOf : List ℕ → List (ℕ × ℕ)
  | [] => []
  | x :: xs => (xs.map fun z => (x, z)) ++ pairsOf xs

/-- CFS merit, translated from the method compute_merit of MFS: the
candidate scores are summed from the label-correlation vector, the
pairwise redundancy is accumulated through the memoization cache, and
the value is the ratio with the square-root denominator.  The square
root is a parameter so that the engine can be stated over any linear
ordered field; the real instantiation uses Real.sqrt. -/
def compute_merit {α : Type} [LinearOrderedField α] (sqrtF : α → α)
    (suF : ℕ → ℕ → α) (slist : List α) (features : List ℕ) (c : Cache α) :
    α × Cache α :=
  let rcf := (features.map fun f => slist.getD f 0).sum
  let rk := (pairsOf features).foldl
    (fun acc pq =>
      let vc := compute_su_features suF acc.2 pq.1 pq.2
      (acc.1 + vc.1, vc.2)) ((0:α), c)
  let k : α := (features.length : α)
  (rcf / sqrtF (k + (k ^ 2 - k) * rk.1), rk.2)

/-- Engine state: optional result list, score trace, lazily computed
label-correlation vector and the pairwise cache, that is the four
attributes reset at the start of every run of the engine. -/
structure MFSState (α : Type) where
  result : Option (List ℕ)
  scores : List α
  suLabels : Option (List α)
  suFeatures : Cache α
  deriving DecidableEq

/-- Fresh engine state, as produced by the per-call reset of the
engine attributes. -/
def MFSState.reset {α : Type} : MFSState α := ⟨none, [], none, []⟩

/-- Lazily computed label correlation vector, translated from the
method compute_su_labels of MFS: the cached vector is returned when
present, otherwise one score per feature column is computed and
stored. -/
def compute_su_labels {α : Type} (n : ℕ) (suL : ℕ → α) (st : MFSState α) :
    List α × MFSState α :=
  match st.suLabels with
  | some v => (v, st)
  | none =>
    let v := (List.range n).map suL
    (v, { st with suLabels := some v })

/-- Stable insertion into a descending-sorted list of feature indices. -/
def insertDesc {α : Type} [LinearOrderedField α] (key : ℕ → α) (i : ℕ) :
    List ℕ → List ℕ
  | [] => [i]
  | j :: js => if key j < key i then i :: j :: js else j :: insertDesc key i js

/-- Indices 0..n-1 sorted by descending key, the embedding of the
argsort of the negated score vector. -/
def argsortDesc {α : Type} [LinearOrderedField α] (key : ℕ → α) (n : ℕ) :
    List ℕ :=
  (List.range n).foldl (fun acc i => insertDesc key i acc) []

/-- Sentinel loop of the stagnation check, translated literally from the
item_ant pattern in MFS.cfs; true means the for loop ran to completion
without a break, the case in which the search is stopped. -/
def sentinel {α : Type} [LinearOrderedField α] (prev : α) : List α → Bool
  | [] => true
  | x :: xs =>
    let p := if prev = -1 then x else prev
    if p < x then false else sentinel x xs

/-- The stagnation check applied by cfs to the last five scores. -/
def stopCheck {α : Type} [LinearOrderedField α] (l : List α) : Bool :=
  sentinel (-1) l

/-- Last n entries of a list, the python slice l[-n:]. -/
def lastN {α : Type} (n : ℕ) (l : List α) : List α := l.drop (l.length - n)

/-- Inner argmax pass of one cfs expansion, translated from the loop
over enumerate(feature_order): the merit starts at the float-info
minimum and the index of the last strict improvement is kept. -/
def selectAux {α : Type} [LinearOrderedField α]
    (meritF : List ℕ → Cache α → α × Cache α) (cands : List ℕ) :
    List ℕ → ℕ → Option ℕ × α → Cache α → (Option ℕ × α) × Cache α
  | [], _, best, c => (best, c)
  | f :: fs, idx, best, c =>
    let mc := meritF (cands ++ [f]) c
    if best.2 < mc.1 then selectAux meritF cands fs (idx + 1) (some idx, mc.1) mc.2
    else selectAux meritF cands fs (idx + 1) best mc.2

/-- Main while loop of MFS.cfs.  The fuel argument is kept one larger
than the length of the remaining pool, which each iteration strictly
decreases; a none result models the TypeError raised when no candidate
improves on the initial merit so that id_selected stays None. -/
def cfsLoop {α : Type} [LinearOrderedField α]
    (meritF : List ℕ → Cache α → α × Cache α) (fmin : α) :
    ℕ → List ℕ → List ℕ → List α → Cache α →
      Option (List ℕ × List α × Cache α)
  | 0, _, _, _, _ => none
  | fuel + 1, order, cands, scores, c =>
    match selectAux meritF cands order 0 (none, fmin) c with
    | ((none, _), _) => none
    | ((some i, m), c1) =>
      let cands1 := cands ++ [order.getD i 0]
      let scores1 := scores ++ [m]
      let order1 := order.eraseIdx i
      if order1 ≠ [] ∧ ¬(5 ≤ scores1.length ∧ stopCheck (lastN 5 scores1) = true)
      then cfsLoop meritF fmin fuel order1 cands1 scores1 c1
      else some (cands1, scores1, c1)

/-- MFS.cfs for an abstract dataset: reset, compute the label
correlations, seed the candidate set with the best feature and run the
search loop.  A none result models the uncaught python exceptions (pop
from an empty feature list when there are no features, or indexing
with a None id_selected). -/
def cfsE {α : Type} [LinearOrderedField α] (n : ℕ) (suL : ℕ → α)
    (suF : ℕ → ℕ → α) (sqrtF : α → α) (fmin : α) (st : MFSState α) :
    Option (MFSState α) :=
  let st0 : MFSState α := MFSState.reset
  let sl := compute_su_labels n suL st0
  let slist := sl.1
  let st1 := sl.2
  let order := argsortDesc (fun i => slist.getD i 0) n
  match order with
  | [] => none
  | f0 :: rest =>
    match cfsLoop (compute_merit sqrtF suF slist) fmin (rest.length + 1)
        rest [f0] [slist.getD f0 0] st1.suFeatures with
    | none => none
    | some (cands, scores, c1) =>
      some { st1 with result := some cands, scores := scores, suFeatures := c1 }

/-- Inner dominance pass of fcbs over the features after the current
one: zero the working score of any later feature that the accepted
feature predicts at least as well as the label does. -/
def dominate {α : Type} [LinearOrderedField α] (suF : ℕ → ℕ → α) (p : ℕ) :
    List ℕ → List α → Cache α → List α × Cache α
  | [], slist, c => (slist, c)
  | q :: qs, slist, c =>
    let vc := compute_su_features suF c p q
    if slist.getD q 0 ≤ vc.1 then dominate suF p qs (slist.set q 0) vc.2
    else dominate suF p qs slist vc.2

/-- Main loop of MFS.fcbs over the descending feature order.  The tail
of the recursion doubles as feature_dup, which always holds exactly the
features after the current one. -/
def fcbsLoop {α : Type} [LinearOrderedField α] (suF : ℕ → ℕ → α) (t : α) :
    List ℕ → List α → List ℕ → List α → Cache α →
      List α × List ℕ × List α × Cache α
  | [], slist, res, scores, c => (slist, res, scores, c)
  | p :: rest, slist, res, scores, c =>
    if slist.getD p 0 = 0 then fcbsLoop suF t rest slist res scores c
    else if slist.getD p 0 < t then (slist, res, scores, c)
    else
      let dc := dominate suF p rest slist c
      fcbsLoop suF t rest dc.1 (res ++ [p]) (scores ++ [dc.1.getD p 0]) dc.2

/-- MFS.fcbs for an abstract dataset: threshold validation, reset,
label correlations, then the single forward pass.  The error case
returns the incoming state unchanged next to the invalid-threshold
error, modelling the ValueError raised before any engine attribute is
touched.  The working score list is the su_labels array itself, so the
final state stores the zeroed working scores in the su_labels cache,
exactly as the python code does through the s_list alias. -/
def fcbsE {α : Type} [LinearOrderedField α] (n : ℕ) (suL : ℕ → α)
    (suF : ℕ → ℕ → α) (t : α) (st : MFSState α) :
    MFSState α × Option MFSErr :=
  if t < 1 / 10000 then (st, some MFSErr.invalidThreshold)
  else
    let st0 : MFSState α := MFSState.reset
    let sl := compute_su_labels n suL st0
    let slist := sl.1
    let st1 := sl.2
    let order := argsortDesc (fun i => slist.getD i 0) n
    let out := fcbsLoop suF t order slist [] [] st1.suFeatures
    ({ st1 with result := some out.2.1, scores := out.2.2.1, suLabels := some out.1, suFeatures := out.2.2.2 }, none)

end MFS

/-- Column j of a row-major data matrix. -/
def column (X : List (List ℤ)) (j : ℕ) : List ℤ := X.map fun row => row.getD j 0

/-- Number of feature columns of a rectangular row-major matrix. -/
def numFeatures (X : List (List ℤ)) : ℕ := (X.headD []).length

/-- Symmetrical uncertainty of one feature column with the labels, the
value stored in su_labels. -/
noncomputable def suLabelOf (X : List (List ℤ)) (y : List ℤ) (j : ℕ) : ℝ :=
  Metrics.symmetrical_uncertainty (column X j) y

/-- Symmetrical uncertainty of two feature columns, the value stored in
the su_features cache. -/
noncomputable def suFeatOf (X : List (List ℤ)) (a b : ℕ) : ℝ :=
  Metrics.symmetrical_uncertainty (column X a) (column X b)

/-- Smallest positive normal double, sys.float_info.min, the initial
merit of each cfs expansion. -/
noncomputable def floatMin : ℝ := (2:ℝ) ^ (-(1022:ℤ))

/-- The composite cfs algorithm over the real numbers. -/
noncomputable def MFS.cfs (X : List (List ℤ)) (y : List ℤ)
    (st : MFS.MFSState ℝ) : Option (MFS.MFSState ℝ) :=
  MFS.cfsE (numFeatures X) (suLabelOf X y) (suFeatOf X) Real.sqrt floatMin st

/-- The composite fcbs algorithm over the real numbers. -/
noncomputable def MFS.fcbs (X : List (List ℤ)) (y : List ℤ) (t : ℝ)
    (st : MFS.MFSState ℝ) : MFS.MFSState ℝ × Option MFS.MFSErr :=
  MFS.fcbsE (numFeatures X) (suLabelOf X y) (suFeatOf X) t st

/-- Cache well-formedness: every memoized entry holds the pairwise
score of its key.  The invariant holds for every cache arising inside
a run, because entries are only ever created from the score
function. -/
def MFS.CacheOK {α : Type} (suF : ℕ → ℕ → α) (c : MFS.Cache α) : Prop :=
  ∀ e ∈ c, e.2 = suF e.1.1 e.1.2

/-- Merit formula as written in the specification: the sum of the k
candidate label-correlation scores divided by the square root of
k + (k^2 - k) times the pairwise-score sum over all unordered
candidate pairs; the unordered-pair sum is expressed as half the sum
over ordered distinct pairs. -/
noncomputable def meritSpec (suF : ℕ → ℕ → ℝ) (slist : List ℝ) (fs : List ℕ) : ℝ :=
  (∑ f ∈ fs.toFinset, slist.getD f 0)
    / Real.sqrt ((fs.toFinset.card : ℝ)
      + ((fs.toFinset.card : ℝ) ^ 2 - (fs.toFinset.card : ℝ))
        * ((∑ p ∈ fs.toFinset.offDiag, suF p.1 p.2) / 2))

/-- Non-increasing window predicate, the property named by the
stagnation stopping rule of cfs. -/
def nonIncr {α : Type} [LinearOrder α] (l : List α) : Prop :=
  List.Chain' (fun a b => b ≤ a) l

/-- Label-correlation scores of a tiny rational dataset used for
concrete engine runs. -/
def suLq : ℕ → ℚ := fun i => ([1, 1/2] : List ℚ).getD i 0

/-- Pairwise scores of the tiny rational dataset. -/
def suFq : ℕ → ℕ → ℚ := fun _ _ => 1/4

/-- Engine state produced by a cfs run on the rational example. -/
def stW : MFS.MFSState ℚ := ⟨some [0, 1], [1, 3/5], some [1, 1/2], [((0, 1), 1/4)]⟩

/-- Engine state produced by an fcbs run on the rational example with
threshold one. -/
def stFW : MFS.MFSState ℚ := ⟨some [0], [1], some [1, 1/2], [((0, 1), 1/4)]⟩

/-- An arbitrary dirty engine state. -/
def stJunk : MFS.MFSState ℚ := ⟨some [9], [7], some [5], [((3, 3), 9)]⟩

/-- Concrete integer data matrix with two feature columns: the first
column equals the labels and the second takes four distinct values. -/
def X0 : List (List ℤ) := [[0, 0], [0, 1], [1, 2], [1, 3]]

/-- Concrete label vector for the integer dataset. -/
def y0 : List ℤ := [0, 0, 1, 1]

/-- The engine state produced by running fcbs with threshold one half
on the concrete integer dataset. -/
noncomputable def fcbsFinal : MFS.MFSState ℝ :=
  ⟨some [0], [1], some [1, 0], [((0, 1), 2/3)]⟩

/-- C6: information gain is definitionally the entropy of the labels
minus the conditional entropy, and the conditional entropy is
definitionally the entropy of the row-wise joint variable minus the
entropy of the conditioning variable, for every input and base. -/
theorem information_gain_decomposition {β γ : Type} [DecidableEq β] [DecidableEq γ]
    (x : List β) (y : List γ) (base : ℝ) :
    Metrics.information_gain x y base
        = Metrics.entropy y base - Metrics.conditional_entropy x y base
      ∧ Metrics.conditional_entropy x y base
        = Metrics.entropy (x.zip y) base - Metrics.entropy x base :=
  ⟨rfl, rfl⟩

/-- C7: for a nonempty vector and a base greater than one the entropy is
nonnegative, and entropy is invariant under permutations of the
vector. -/
theorem entropy_nonneg_and_perm_invariant {β : Type} [DecidableEq β]
    (y : List β) (base : ℝ) :
    (y ≠ [] → 1 < base → 0 ≤ Metrics.entropy y base)
      ∧ ∀ y2 : List β, y.Perm y2 →
          Metrics.entropy y base = Metrics.entropy y2 base := by
  constructor
  · intro hy hb
    unfold Metrics.entropy
    apply div_nonneg
    · apply List.sum_nonneg
      intro z hz
      rw [List.mem_map] at hz
      obtain ⟨p, hp, rfl⟩ := hz
      rw [List.mem_filter, decide_eq_true_eq] at hp
      obtain ⟨hpm, hppos⟩ := hp
      rw [List.mem_map] at hpm
      obtain ⟨v, hv, rfl⟩ := hpm
      have hlen : 0 < (y.length : ℝ) := by
        have h0 : 0 < y.length := List.length_pos.mpr hy
        exact_mod_cast h0
      have hp1 : ((y.count v : ℝ)) / (y.length : ℝ) ≤ 1 := by
        rw [div_le_one hlen]
        exact_mod_cast List.count_le_length v y
      have hlog : 0 ≤ Real.log (1 / (((y.count v : ℝ)) / (y.length : ℝ))) := by
        rw [one_div, Real.log_inv]
        exact neg_nonneg.mpr (Real.log_nonpos hppos.le hp1)
      exact mul_nonneg hppos.le hlog
    · exact Real.log_nonneg hb.le
  · intro y2 hperm
    unfold Metrics.entropy
    have hmap :
        (y.dedup.map fun v => ((y.count v : ℝ)) / (y.length : ℝ)).Perm
          (y2.dedup.map fun v => ((y2.count v : ℝ)) / (y2.length : ℝ)) := by
      have h1 := (hperm.dedup).map fun v => ((y.count v : ℝ)) / (y.length : ℝ)
      have h2 :
          (y2.dedup.map fun v => ((y.count v : ℝ)) / (y.length : ℝ))
            = y2.dedup.map fun v => ((y2.count v : ℝ)) / (y2.length : ℝ) := by
        apply List.map_congr_left
        intro v _
        rw [hperm.count_eq, hperm.length_eq]
      rw [h2] at h1
      exact h1
    have hfil := hmap.filter fun p => decide ((0:ℝ) < p)
    have hsum := (hfil.map fun p => p * Real.log (1 / p)).sum_eq
    rw [hsum]

/-- Witness for C7 at a concrete nonempty vector and base 2. -/
theorem entropy_nonneg_and_perm_invariant_witness :
    (0:ℝ) ≤ Metrics.entropy ([0, 1] : List ℤ) 2
      ∧ Metrics.entropy ([0, 1] : List ℤ) 2
        = Metrics.entropy ([1, 0] : List ℤ) 2 :=
  ⟨(entropy_nonneg_and_perm_invariant [0, 1] 2).1 (by decide) (by norm_num),
   (entropy_nonneg_and_perm_invariant [0, 1] 2).2 [1, 0] (by decide)⟩

/-- C8 counterexample: on the empty vector the entropy computation does
not fail, it silently returns the numeric value zero. -/
theorem entropy_empty_returns_zero :
    Metrics.entropy ([] : List ℤ) 2 = 0 := by
  simp [Metrics.entropy]

/-- C8 amended: entropy of an empty vector silently evaluates to zero at
every base, because the empty probability support sums to zero. -/
theorem entropy_empty_amended (base : ℝ) :
    Metrics.entropy ([] : List ℤ) base = 0 := by
  simp [Metrics.entropy]

lemma cacheLookup_mem {α : Type} (c : MFS.Cache α) (k : ℕ × ℕ) (v : α) :
    MFS.cacheLookup c k = some v → (k, v) ∈ c := by
  induction c with
  | nil => intro h; simp [MFS.cacheLookup] at h
  | cons e es ih =>
    intro h
    by_cases hek : e.1 = k
    · rw [MFS.cacheLookup, if_pos hek] at h
      injection h with h
      subst hek
      subst h
      exact List.mem_cons_self e es
    · rw [MFS.cacheLookup, if_neg hek] at h
      exact List.mem_cons_of_mem e (ih h)

lemma compute_su_features_spec {α : Type} (suF : ℕ → ℕ → α) (c : MFS.Cache α)
    (a b : ℕ) (hc : MFS.CacheOK suF c) :
    (MFS.compute_su_features suF c a b).1 = suF a b
      ∧ MFS.CacheOK suF (MFS.compute_su_features suF c a b).2 := by
  rcases h : MFS.cacheLookup c (a, b) with _ | v
  · simp only [MFS.compute_su_features, h]
    refine ⟨by simp, ?_⟩
    intro e he
    rcases List.mem_append.mp he with h1 | h2
    · exact hc e h1
    · rw [List.mem_singleton] at h2
      rw [h2]
  · simp only [MFS.compute_su_features, h]
    have hmem := cacheLookup_mem c (a, b) v h
    exact ⟨hc _ hmem, hc⟩

lemma merit_fold_spec {α : Type} [LinearOrderedField α] (suF : ℕ → ℕ → α) :
    ∀ (pl : List (ℕ × ℕ)) (a : α) (c : MFS.Cache α), MFS.CacheOK suF c →
      (pl.foldl (fun acc pq =>
          let vc := MFS.compute_su_features suF acc.2 pq.1 pq.2
          (acc.1 + vc.1, vc.2)) (a, c)).1
         = a + (pl.map fun pq => suF pq.1 pq.2).sum
        ∧ MFS.CacheOK suF (pl.foldl (fun acc pq =>
          let vc := MFS.compute_su_features suF acc.2 pq.1 pq.2
          (acc.1 + vc.1, vc.2)) (a, c)).2 := by
  intro pl
  induction pl with
  | nil => intro a c hc; exact ⟨by simp, hc⟩
  | cons pq rest ih =>
    intro a c hc
    have hspec := compute_su_features_spec suF c pq.1 pq.2 hc
    have hstep : (fun acc pq => ((
        let vc := MFS.compute_su_features suF acc.2 pq.1 pq.2
        (acc.1 + vc.1, vc.2) : α × MFS.Cache α))) (a, c) pq
        = (a + suF pq.1 pq.2, (MFS.compute_su_features suF c pq.1 pq.2).2) := by
      show (a + (MFS.compute_su_features suF c pq.1 pq.2).1,
        (MFS.compute_su_features suF c pq.1 pq.2).2) = _
      rw [hspec.1]
    simp only [List.foldl_cons, hstep]
    obtain ⟨h1, h2⟩ := ih (a + suF pq.1 pq.2)
      (MFS.compute_su_features suF c pq.1 pq.2).2 hspec.2
    refine ⟨?_, h2⟩
    rw [h1, List.map_cons, List.sum_cons, add_assoc]

lemma pairsOf_sum {α : Type} [LinearOrderedField α] (suF : ℕ → ℕ → α)
    (hsym : ∀ a b, suF a b = suF b a) :
    ∀ fs : List ℕ, fs.Nodup →
      2 * ((MFS.pairsOf fs).map fun pq => suF pq.1 pq.2).sum
        = ∑ p ∈ fs.toFinset.offDiag, suF p.1 p.2 := by
  intro fs
  induction fs with
  | nil => intro _; simp [MFS.pairsOf]
  | cons x xs ih =>
    intro hnd
    rw [List.nodup_cons] at hnd
    obtain ⟨hx, hxs⟩ := hnd
    have hxf : x ∉ xs.toFinset := fun hmem => hx (List.mem_toFinset.mp hmem)
    have d1 : Disjoint xs.toFinset.offDiag ({x} ×ˢ xs.toFinset) := by
      rw [Finset.disjoint_left]
      intro p hp hq
      rw [Finset.mem_offDiag] at hp
      rw [Finset.mem_product, Finset.mem_singleton] at hq
      exact hxf (hq.1 ▸ hp.1)
    have d2 : Disjoint (xs.toFinset.offDiag ∪ {x} ×ˢ xs.toFinset)
        (xs.toFinset ×ˢ {x}) := by
      rw [Finset.disjoint_left]
      intro p hp hq
      rw [Finset.mem_product, Finset.mem_singleton] at hq
      rcases Finset.mem_union.mp hp with h1 | h2
      · rw [Finset.mem_offDiag] at h1
        exact hxf (hq.2 ▸ h1.2.1)
      · rw [Finset.mem_product, Finset.mem_singleton] at h2
        exact hxf (hq.2 ▸ h2.2)
    have hsx : ∑ p ∈ {x} ×ˢ xs.toFinset, suF p.1 p.2
        = ∑ z ∈ xs.toFinset, suF x z := by
      rw [Finset.sum_product, Finset.sum_singleton]
    have hsx2 : ∑ p ∈ xs.toFinset ×ˢ {x}, suF p.1 p.2
        = ∑ z ∈ xs.toFinset, suF x z := by
      rw [Finset.sum_product]
      refine Finset.sum_congr rfl ?_
      intro z _
      rw [Finset.sum_singleton, hsym]
    have hlist : (xs.map fun z => suF x z).sum = ∑ z ∈ xs.toFinset, suF x z :=
      (List.sum_toFinset _ hxs).symm
    have hpairs : MFS.pairsOf (x :: xs) = (xs.map fun z => (x, z)) ++ MFS.pairsOf xs := rfl
    rw [hpairs, List.map_append, List.sum_append, List.map_map]
    have hcomp : ((fun pq : ℕ × ℕ => suF pq.1 pq.2) ∘ fun z => (x, z))
        = fun z => suF x z := rfl
    rw [hcomp, List.toFinset_cons, Finset.offDiag_insert x hxf,
      Finset.sum_union d2, Finset.sum_union d1, hsx, hsx2, hlist, ← ih hxs]
    ring

/-- C1: the merit function equals the specification formula (candidate
score sum over the square root of k plus (k squared minus k) times the
unordered-pair redundancy sum), and for a single candidate it reduces
to that feature's label-correlation score. -/
theorem merit_formula (suF : ℕ → ℕ → ℝ) (slist : List ℝ) (fs : List ℕ)
    (c : MFS.Cache ℝ) (hnd : fs.Nodup) (hsym : ∀ a b, suF a b = suF b a)
    (hc : MFS.CacheOK suF c) :
    (MFS.compute_merit Real.sqrt suF slist fs c).1 = meritSpec suF slist fs
      ∧ ∀ (f : ℕ) (c2 : MFS.Cache ℝ), MFS.CacheOK suF c2 →
        (MFS.compute_merit Real.sqrt suF slist [f] c2).1 = slist.getD f 0 := by
  constructor
  · show (fs.map fun f => slist.getD f 0).sum
      / Real.sqrt ((fs.length : ℝ) + ((fs.length : ℝ) ^ 2 - (fs.length : ℝ))
        * ((MFS.pairsOf fs).foldl (fun acc pq =>
            let vc := MFS.compute_su_features suF acc.2 pq.1 pq.2
            (acc.1 + vc.1, vc.2)) ((0:ℝ), c)).1) = meritSpec suF slist fs
    rw [(merit_fold_spec suF (MFS.pairsOf fs) 0 c hc).1, zero_add]
    have hpair : ((MFS.pairsOf fs).map fun pq => suF pq.1 pq.2).sum
        = (∑ p ∈ fs.toFinset.offDiag, suF p.1 p.2) / 2 := by
      have h2 := pairsOf_sum suF hsym fs hnd
      linarith
    have hcard : (fs.length : ℝ) = (fs.toFinset.card : ℝ) := by
      rw [List.toFinset_card_of_nodup hnd]
    rw [hpair, hcard, ← List.sum_toFinset _ hnd]
    rfl
  · intro f c2 hc2
    show ([f].map fun f => slist.getD f 0).sum
      / Real.sqrt (((1:ℕ) : ℝ) + (((1:ℕ) : ℝ) ^ 2 - ((1:ℕ) : ℝ))
        * ((MFS.pairsOf [f]).foldl (fun acc pq =>
            let vc := MFS.compute_su_features suF acc.2 pq.1 pq.2
            (acc.1 + vc.1, vc.2)) ((0:ℝ), c2)).1) = slist.getD f 0
    have hp : MFS.pairsOf [f] = [] := rfl
    rw [hp]
    simp [Real.sqrt_one]

/-- Witness for C1 at a single concrete candidate. -/
theorem merit_formula_witness :
    (MFS.compute_merit Real.sqrt (fun _ _ => (0:ℝ)) [5] [0] []).1 = 5 := by
  have h := (merit_formula (fun _ _ => (0:ℝ)) [5] [0] [] (by decide)
    (fun a b => rfl) (by intro e he; simp at he)).2 0 []
    (by intro e he; simp at he)
  simpa using h

lemma getD_set_self {α : Type} [LinearOrderedField α] (l : List α) :
    ∀ q : ℕ, (l.set q 0).getD q 0 = 0 := by
  induction l with
  | nil => intro q; simp
  | cons a l ih =>
    intro q
    cases q with
    | zero => rfl
    | succ q =>
      rw [List.set_cons_succ, List.getD_cons_succ]
      exact ih q

lemma getD_set_ne {α : Type} [LinearOrderedField α] (l : List α) (z : α) :
    ∀ (q i : ℕ), i ≠ q → (l.set q z).getD i 0 = l.getD i 0 := by
  induction l with
  | nil => intro q i _; rfl
  | cons a l ih =>
    intro q i hne
    cases q with
    | zero =>
      cases i with
      | zero => exact absurd rfl hne
      | succ i => rw [List.set_cons_zero, List.getD_cons_succ, List.getD_cons_succ]
    | succ q =>
      cases i with
      | zero => rw [List.set_cons_succ, List.getD_cons_zero, List.getD_cons_zero]
      | succ i =>
        rw [List.set_cons_succ, List.getD_cons_succ, List.getD_cons_succ]
        exact ih q i fun h => hne (by rw [h])

lemma dominate_working {α : Type} [LinearOrderedField α] (suF : ℕ → ℕ → α)
    (p : ℕ) (orig : List α) :
    ∀ (qs : List ℕ) (sl : List α) (c : MFS.Cache α),
      (∀ i, sl.getD i 0 = orig.getD i 0 ∨ sl.getD i 0 = 0) →
      ∀ i, (MFS.dominate suF p qs sl c).1.getD i 0 = orig.getD i 0
        ∨ (MFS.dominate suF p qs sl c).1.getD i 0 = 0 := by
  intro qs
  induction qs with
  | nil => intro sl c hinv i; exact hinv i
  | cons q qs ih =>
    intro sl c hinv i
    simp only [MFS.dominate]
    by_cases hcond : sl.getD q 0 ≤ (MFS.compute_su_features suF c p q).1
    · rw [if_pos hcond]
      refine ih _ _ ?_ i
      intro j
      by_cases hjq : j = q
      · subst hjq
        exact Or.inr (getD_set_self sl j)
      · rw [getD_set_ne sl 0 q j hjq]
        exact hinv j
    · rw [if_neg hcond]
      exact ih _ _ hinv i

lemma fcbsLoop_result {α : Type} [LinearOrderedField α] (suF : ℕ → ℕ → α)
    (t : α) (orig : List α) (ht : 0 < t) :
    ∀ (order : List ℕ) (sl : List α) (res : List ℕ) (scores : List α)
      (c : MFS.Cache α),
      (∀ i, sl.getD i 0 = orig.getD i 0 ∨ sl.getD i 0 = 0) →
      (∀ p ∈ res, t ≤ orig.getD p 0) →
      (∀ p ∈ (MFS.fcbsLoop suF t order sl res scores c).2.1,
          t ≤ orig.getD p 0)
        ∧ (∀ p ∈ (MFS.fcbsLoop suF t order sl res scores c).2.1,
            p ∈ res ∨ p ∈ order)
        ∧ (∀ i, (MFS.fcbsLoop suF t order sl res scores c).1.getD i 0
              = orig.getD i 0
            ∨ (MFS.fcbsLoop suF t order sl res scores c).1.getD i 0 = 0) := by
  intro order
  induction order with
  | nil =>
    intro sl res scores c hinv hres
    exact ⟨hres, fun p hp => Or.inl hp, hinv⟩
  | cons p rest ih =>
    intro sl res scores c hinv hres
    simp only [MFS.fcbsLoop]
    by_cases h0 : sl.getD p 0 = 0
    · rw [if_pos h0]
      obtain ⟨o1, o2, o3⟩ := ih sl res scores c hinv hres
      exact ⟨o1, fun q hq => (o2 q hq).imp_right (List.mem_cons_of_mem p), o3⟩
    · rw [if_neg h0]
      by_cases h1 : sl.getD p 0 < t
      · rw [if_pos h1]
        exact ⟨hres, fun q hq => Or.inl hq, hinv⟩
      · rw [if_neg h1]
        have hp : t ≤ orig.getD p 0 := by
          rcases hinv p with hcase | hcase
          · rw [← hcase]; exact not_lt.mp h1
          · exact absurd (hcase ▸ not_lt.mp h1) (not_le.mpr ht)
        have hinv2 := dominate_working suF p orig rest sl c hinv
        have hres2 : ∀ q ∈ res ++ [p], t ≤ orig.getD q 0 := by
          intro q hq
          rcases List.mem_append.mp hq with hq1 | hq2
          · exact hres q hq1
          · rw [List.mem_singleton] at hq2
            exact hq2 ▸ hp
        obtain ⟨o1, o2, o3⟩ := ih _ _ _ _ hinv2 hres2
        refine ⟨o1, ?_, o3⟩
        intro q hq
        rcases o2 q hq with hq1 | hq2
        · rcases List.mem_append.mp hq1 with hm1 | hm2
          · exact Or.inl hm1
          · rw [List.mem_singleton] at hm2
            exact Or.inr (hm2 ▸ List.mem_cons_self p rest)
        · exact Or.inr (List.mem_cons_of_mem p hq2)

lemma insertDesc_perm {α : Type} [LinearOrderedField α] (key : ℕ → α) (i : ℕ) :
    ∀ l : List ℕ, (MFS.insertDesc key i l).Perm (i :: l) := by
  intro l
  induction l with
  | nil => exact List.Perm.refl _
  | cons j js ih =>
    rw [MFS.insertDesc]
    by_cases h : key j < key i
    · rw [if_pos h]
    · rw [if_neg h]
      exact (ih.cons j).trans (List.Perm.swap i j js)

lemma argsortFold_perm {α : Type} [LinearOrderedField α] (key : ℕ → α) :
    ∀ (l : List ℕ) (acc : List ℕ),
      (l.foldl (fun acc i => MFS.insertDesc key i acc) acc).Perm (acc ++ l) := by
  intro l
  induction l with
  | nil => intro acc; simp
  | cons i l ih =>
    intro acc
    rw [List.foldl_cons]
    have h1 := ih (MFS.insertDesc key i acc)
    have h2 : (MFS.insertDesc key i acc ++ l).Perm ((i :: acc) ++ l) :=
      (insertDesc_perm key i acc).append_right l
    have h3 : (i :: (acc ++ l)).Perm (acc ++ i :: l) := List.perm_middle.symm
    exact (h1.trans h2).trans h3

lemma argsortDesc_mem {α : Type} [LinearOrderedField α] (key : ℕ → α)
    (n p : ℕ) : p ∈ MFS.argsortDesc key n → p < n := by
  intro hp
  rw [MFS.argsortDesc] at hp
  have hperm := argsortFold_perm key (List.range n) []
  have hmem := hperm.mem_iff.mp hp
  simp at hmem
  exact hmem

lemma getD_range_map {α : Type} [LinearOrderedField α] (suL : ℕ → α)
    (n p : ℕ) (h : p < n) : ((List.range n).map suL).getD p 0 = suL p := by
  rw [List.getD_eq_getElem?_getD, List.getElem?_map, List.getElem?_range h]
  rfl

lemma fcbsE_ok {α : Type} [LinearOrderedField α] (n : ℕ) (suL : ℕ → α)
    (suF : ℕ → ℕ → α) (t : α) (st : MFS.MFSState α) (ht : ¬ t < 1 / 10000) :
    MFS.fcbsE n suL suF t st
      = (⟨some (MFS.fcbsLoop suF t
            (MFS.argsortDesc (fun i => ((List.range n).map suL).getD i 0) n)
            ((List.range n).map suL) [] [] []).2.1,
          (MFS.fcbsLoop suF t
            (MFS.argsortDesc (fun i => ((List.range n).map suL).getD i 0) n)
            ((List.range n).map suL) [] [] []).2.2.1,
          some (MFS.fcbsLoop suF t
            (MFS.argsortDesc (fun i => ((List.range n).map suL).getD i 0) n)
            ((List.range n).map suL) [] [] []).1,
          (MFS.fcbsLoop suF t
            (MFS.argsortDesc (fun i => ((List.range n).map suL).getD i 0) n)
            ((List.range n).map suL) [] [] []).2.2.2⟩, none) := by
  simp only [MFS.fcbsE]
  rw [if_neg ht]
  rfl

/-- C5: fcbs called with a threshold below 1e-4 fails immediately with
the invalid-threshold error and returns the engine state unchanged,
while for every threshold of at least 1e-4 no error is raised. -/
theorem fcbs_threshold_validation (X : List (List ℤ)) (y : List ℤ) (t : ℝ)
    (st : MFS.MFSState ℝ) :
    (t < 1 / 10000 →
        MFS.fcbs X y t st = (st, some MFS.MFSErr.invalidThreshold))
      ∧ ((1:ℝ) / 10000 ≤ t → (MFS.fcbs X y t st).2 = none) := by
  constructor
  · intro ht
    show MFS.fcbsE (numFeatures X) (suLabelOf X y) (suFeatOf X) t st = _
    simp only [MFS.fcbsE]
    rw [if_pos ht]
  · intro ht
    show (MFS.fcbsE (numFeatures X) (suLabelOf X y) (suFeatOf X) t st).2 = none
    rw [fcbsE_ok _ _ _ _ _ (not_lt.mpr ht)]

/-- Witness for C5: a failing call with threshold zero leaves a dirty
state untouched, and a call with threshold one raises no error. -/
theorem fcbs_threshold_validation_witness :
    MFS.fcbs X0 y0 0 ⟨some [3], [2], some [1], []⟩
        = (⟨some [3], [2], some [1], []⟩, some MFS.MFSErr.invalidThreshold)
      ∧ (MFS.fcbs X0 y0 1 ⟨some [3], [2], some [1], []⟩).2 = none :=
  ⟨(fcbs_threshold_validation X0 y0 0 _).1 (by norm_num),
   (fcbs_threshold_validation X0 y0 1 _).2 (by norm_num)⟩

/-- C3: every feature index in the fcbs result has a label-correlation
score of at least the threshold. -/
theorem fcbs_result_above_threshold (X : List (List ℤ)) (y : List ℤ) (t : ℝ)
    (st st2 : MFS.MFSState ℝ) (e : Option MFS.MFSErr) (res : List ℕ)
    (ht : (1:ℝ) / 10000 ≤ t) (hrun : MFS.fcbs X y t st = (st2, e))
    (hres : st2.result = some res) :
    ∀ p ∈ res, t ≤ suLabelOf X y p := by
  have hnl : ¬ t < 1 / 10000 := not_lt.mpr ht
  have hrun2 : MFS.fcbsE (numFeatures X) (suLabelOf X y) (suFeatOf X) t st
      = (st2, e) := hrun
  rw [fcbsE_ok _ _ _ _ _ hnl] at hrun2
  injection hrun2 with h1 h2
  subst h1
  have hres2 := Option.some.inj hres
  have ht0 : (0:ℝ) < t := lt_of_lt_of_le (by norm_num) ht
  obtain ⟨o1, o2, _⟩ := fcbsLoop_result (suFeatOf X) t
    ((List.range (numFeatures X)).map (suLabelOf X y)) ht0
    (MFS.argsortDesc
      (fun i => ((List.range (numFeatures X)).map (suLabelOf X y)).getD i 0)
      (numFeatures X))
    ((List.range (numFeatures X)).map (suLabelOf X y)) [] [] []
    (fun i => Or.inl rfl)
    (fun p hp => absurd hp (List.not_mem_nil p))
  intro p hp
  rw [← hres2] at hp
  have hlt : p < numFeatures X := by
    rcases o2 p hp with h | h
    · exact absurd h (List.not_mem_nil p)
    · exact argsortDesc_mem _ _ _ h
  have hval := o1 p hp
  rwa [getD_range_map _ _ _ hlt] at hval

/-- C4 amended: after a successful fcbs run the su_labels cache holds
the working score array in which every entry is either the originally
computed label correlation of that feature or zero, the latter when a
dominance step zeroed it; the cache is an alias of the working array,
not an untouched copy. -/
theorem fcbs_zeroes_su_labels_cache (X : List (List ℤ)) (y : List ℤ) (t : ℝ)
    (st st2 : MFS.MFSState ℝ) (e : Option MFS.MFSErr)
    (ht : (1:ℝ) / 10000 ≤ t) (hrun : MFS.fcbs X y t st = (st2, e)) :
    ∃ sl, st2.suLabels = some sl
      ∧ ∀ i, sl.getD i 0 = suLabelOf X y i ∨ sl.getD i 0 = 0 := by
  have hnl : ¬ t < 1 / 10000 := not_lt.mpr ht
  have hrun2 : MFS.fcbsE (numFeatures X) (suLabelOf X y) (suFeatOf X) t st
      = (st2, e) := hrun
  rw [fcbsE_ok _ _ _ _ _ hnl] at hrun2
  injection hrun2 with h1 h2
  subst h1
  have ht0 : (0:ℝ) < t := lt_of_lt_of_le (by norm_num) ht
  obtain ⟨_, _, o3⟩ := fcbsLoop_result (suFeatOf X) t
    ((List.range (numFeatures X)).map (suLabelOf X y)) ht0
    (MFS.argsortDesc
      (fun i => ((List.range (numFeatures X)).map (suLabelOf X y)).getD i 0)
      (numFeatures X))
    ((List.range (numFeatures X)).map (suLabelOf X y)) [] [] []
    (fun i => Or.inl rfl)
    (fun p hp => absurd hp (List.not_mem_nil p))
  refine ⟨(MFS.fcbsLoop (suFeatOf X) t
    (MFS.argsortDesc
      (fun i => ((List.range (numFeatures X)).map (suLabelOf X y)).getD i 0)
      (numFeatures X))
    ((List.range (numFeatures X)).map (suLabelOf X y)) [] [] []).1, ?_, ?_⟩
  · rfl
  · intro i
    by_cases hi : i < numFeatures X
    · rcases o3 i with h | h
      · rw [getD_range_map _ _ _ hi] at h
        exact Or.inl h
      · exact Or.inr h
    · rcases o3 i with h | h
      · have hlen :
            ((List.range (numFeatures X)).map (suLabelOf X y)).length ≤ i := by
          rw [List.length_map, List.length_range]
          exact not_lt.mp hi
        rw [List.getD_eq_default _ _ hlen] at h
        exact Or.inr h
      · exact Or.inr h

lemma filter_pos_all (l : List ℝ) (h : ∀ x ∈ l, 0 < x) :
    l.filter (fun p => decide ((0:ℝ) < p)) = l :=
  List.filter_eq_self.mpr fun a ha => decide_eq_true (h a ha)

lemma entropy_two_pairs {β : Type} [DecidableEq β] (y : List β) (a b : β)
    (hd : y.dedup = [a, b]) (hca : y.count a = 2) (hcb : y.count b = 2)
    (hlen : y.length = 4) : Metrics.entropy y 2 = 1 := by
  unfold Metrics.entropy
  rw [hd]
  simp only [List.map_cons, List.map_nil]
  rw [hca, hcb, hlen]
  have hh : ((2:ℕ):ℝ) / ((4:ℕ):ℝ) = 1/2 := by norm_num
  rw [hh]
  rw [filter_pos_all _ (by intro x hx; simp at hx; rw [hx]; norm_num)]
  simp only [List.map_cons, List.map_nil, List.sum_cons, List.sum_nil]
  have h2 : (1:ℝ) / (1/2) = 2 := by norm_num
  rw [h2]
  have hlog : Real.log 2 ≠ 0 := (Real.log_pos one_lt_two).ne'
  rw [div_eq_iff hlog]
  ring

lemma entropy_four_distinct {β : Type} [DecidableEq β] (y : List β)
    (a b c d : β) (hd : y.dedup = [a, b, c, d]) (hca : y.count a = 1)
    (hcb : y.count b = 1) (hcc : y.count c = 1) (hcd : y.count d = 1)
    (hlen : y.length = 4) : Metrics.entropy y 2 = 2 := by
  unfold Metrics.entropy
  rw [hd]
  simp only [List.map_cons, List.map_nil]
  rw [hca, hcb, hcc, hcd, hlen]
  have hh : ((1:ℕ):ℝ) / ((4:ℕ):ℝ) = 1/4 := by norm_num
  rw [hh]
  rw [filter_pos_all _ (by intro x hx; simp at hx; rw [hx]; norm_num)]
  simp only [List.map_cons, List.map_nil, List.sum_cons, List.sum_nil]
  have h4 : (1:ℝ) / (1/4) = 4 := by norm_num
  rw [h4]
  have hlog4 : Real.log 4 = 2 * Real.log 2 := by
    rw [show (4:ℝ) = 2 ^ 2 by norm_num, Real.log_pow]
    push_cast
    ring
  rw [hlog4]
  have hlog : Real.log 2 ≠ 0 := (Real.log_pos one_lt_two).ne'
  rw [div_eq_iff hlog]
  ring

lemma su_eval {β γ : Type} [DecidableEq β] [DecidableEq γ] (x : List β)
    (y : List γ) (hx hy hxy : ℝ) (h1 : Metrics.entropy x 2 = hx)
    (h2 : Metrics.entropy y 2 = hy) (h3 : Metrics.entropy (x.zip y) 2 = hxy) :
    Metrics.symmetrical_uncertainty x y = 2 * (hy - (hxy - hx)) / (hx + hy) := by
  unfold Metrics.symmetrical_uncertainty Metrics.information_gain
    Metrics.conditional_entropy
  rw [h1, h2, h3]

lemma entropy_col0 : Metrics.entropy ([0, 0, 1, 1] : List ℤ) 2 = 1 :=
  entropy_two_pairs _ 0 1 (by decide) (by decide) (by decide) (by decide)

lemma entropy_y0 : Metrics.entropy y0 2 = 1 := entropy_col0

lemma entropy_col1 : Metrics.entropy ([0, 1, 2, 3] : List ℤ) 2 = 2 :=
  entropy_four_distinct _ 0 1 2 3 (by decide) (by decide) (by decide)
    (by decide) (by decide) (by decide)

lemma su_X0_0 : suLabelOf X0 y0 0 = 1 := by
  have hc : column X0 0 = [0, 0, 1, 1] := by decide
  have hzip : (([0, 0, 1, 1] : List ℤ).zip y0)
      = [(0, 0), (0, 0), (1, 1), (1, 1)] := by decide
  have h3 : Metrics.entropy ([(0, 0), (0, 0), (1, 1), (1, 1)] : List (ℤ × ℤ)) 2
      = 1 :=
    entropy_two_pairs _ (0, 0) (1, 1) (by decide) (by decide) (by decide)
      (by decide)
  unfold suLabelOf
  rw [hc, su_eval _ _ 1 1 1 entropy_col0 entropy_y0 (by rw [hzip]; exact h3)]
  norm_num

lemma su_X0_1 : suLabelOf X0 y0 1 = 2/3 := by
  have hc : column X0 1 = [0, 1, 2, 3] := by decide
  have hzip : (([0, 1, 2, 3] : List ℤ).zip y0)
      = [(0, 0), (1, 0), (2, 1), (3, 1)] := by decide
  have h3 : Metrics.entropy ([(0, 0), (1, 0), (2, 1), (3, 1)] : List (ℤ × ℤ)) 2
      = 2 :=
    entropy_four_distinct _ (0, 0) (1, 0) (2, 1) (3, 1) (by decide) (by decide)
      (by decide) (by decide) (by decide) (by decide)
  unfold suLabelOf
  rw [hc, su_eval _ _ 2 1 2 entropy_col1 entropy_y0 (by rw [hzip]; exact h3)]
  norm_num

lemma su_X0_pair : suFeatOf X0 0 1 = 2/3 := by
  have hc0 : column X0 0 = [0, 0, 1, 1] := by decide
  have hc1 : column X0 1 = [0, 1, 2, 3] := by decide
  have hzip : (([0, 0, 1, 1] : List ℤ).zip ([0, 1, 2, 3] : List ℤ))
      = [(0, 0), (0, 1), (1, 2), (1, 3)] := by decide
  have h3 : Metrics.entropy ([(0, 0), (0, 1), (1, 2), (1, 3)] : List (ℤ × ℤ)) 2
      = 2 :=
    entropy_four_distinct _ (0, 0) (0, 1) (1, 2) (1, 3) (by decide) (by decide)
      (by decide) (by decide) (by decide) (by decide)
  unfold suFeatOf
  rw [hc0, hc1,
    su_eval _ _ 1 2 2 entropy_col0 entropy_col1 (by rw [hzip]; exact h3)]
  norm_num

lemma fcbs_X0_slist :
    (List.range (numFeatures X0)).map (suLabelOf X0 y0) = [(1:ℝ), 2/3] := by
  rw [show numFeatures X0 = 2 from rfl, show List.range 2 = [0, 1] from rfl]
  rw [List.map_cons, List.map_cons, List.map_nil, su_X0_0, su_X0_1]

lemma fcbs_X0_order :
    MFS.argsortDesc (fun i => ([(1:ℝ), 2/3]).getD i 0) (numFeatures X0)
      = [0, 1] := by
  rw [show numFeatures X0 = 2 from rfl, MFS.argsortDesc,
    show List.range 2 = [0, 1] from rfl, List.foldl_cons, List.foldl_cons,
    List.foldl_nil]
  simp only [MFS.insertDesc, List.getD_cons_zero, List.getD_cons_succ]
  rw [if_neg (by norm_num : ¬ (1:ℝ) < 2/3)]

lemma fcbs_X0_dominate :
    MFS.dominate (suFeatOf X0) 0 [1] [(1:ℝ), 2/3] []
      = ([(1:ℝ), 0], [((0, 1), (2:ℝ)/3)]) := by
  simp only [MFS.dominate, MFS.compute_su_features, MFS.cacheLookup, su_X0_pair,
    List.getD_cons_zero, List.getD_cons_succ]
  rw [if_pos (by norm_num : ((2:ℝ)/3) ≤ 2/3)]
  rfl

lemma fcbs_X0_loop :
    MFS.fcbsLoop (suFeatOf X0) (1/2) [0, 1] [(1:ℝ), 2/3] [] [] []
      = ([(1:ℝ), 0], [0], [(1:ℝ)], [((0, 1), (2:ℝ)/3)]) := by
  rw [MFS.fcbsLoop]
  rw [if_neg (by norm_num : ¬ ([(1:ℝ), 2/3].getD 0 0 = 0))]
  rw [if_neg (by norm_num : ¬ ([(1:ℝ), 2/3].getD 0 0 < 1/2))]
  simp only [fcbs_X0_dominate]
  rw [MFS.fcbsLoop]
  rw [if_pos (by norm_num : ([(1:ℝ), 0].getD 1 0 = 0))]
  rw [MFS.fcbsLoop]
  norm_num

lemma fcbs_X0_run :
    MFS.fcbs X0 y0 (1/2) MFS.MFSState.reset = (fcbsFinal, none) := by
  show MFS.fcbsE (numFeatures X0) (suLabelOf X0 y0) (suFeatOf X0) (1/2)
    MFS.MFSState.reset = (fcbsFinal, none)
  rw [fcbsE_ok _ _ _ _ _ (by norm_num), fcbs_X0_slist, fcbs_X0_order,
    fcbs_X0_loop]
  rfl

/-- Witness for C3 at the concrete dataset and threshold one half: the
run selects feature 0 whose label correlation is 1. -/
theorem fcbs_result_above_threshold_witness :
    (1:ℝ)/2 ≤ suLabelOf X0 y0 0 :=
  fcbs_result_above_threshold X0 y0 (1/2) MFS.MFSState.reset fcbsFinal none [0]
    (by norm_num) fcbs_X0_run rfl 0 (by simp)

/-- C4 counterexample: after the concrete fcbs run the su_labels cache
holds [1, 0] although the originally computed label correlations were
[1, 2/3]: the dominance step wrote through the s_list alias into the
cache, so the cache does not keep the originally computed score of
feature 1. -/
theorem fcbs_mutates_su_labels_cache :
    (MFS.fcbs X0 y0 (1/2) MFS.MFSState.reset).1.suLabels = some [1, 0]
      ∧ suLabelOf X0 y0 1 = 2/3 ∧ ((2:ℝ)/3) ≠ 0 := by
  refine ⟨?_, su_X0_1, by norm_num⟩
  rw [fcbs_X0_run]
  rfl

/-- Witness for the amended C4 at the concrete dataset. -/
theorem fcbs_zeroes_su_labels_cache_witness :
    ∃ sl, fcbsFinal.suLabels = some sl
      ∧ ∀ i, sl.getD i 0 = suLabelOf X0 y0 i ∨ sl.getD i 0 = 0 :=
  fcbs_zeroes_su_labels_cache X0 y0 (1/2) MFS.MFSState.reset fcbsFinal none
    (by norm_num) fcbs_X0_run

/-- C9: the engines are deterministic; a second call on the identical
inputs, starting from the state the first successful call produced,
returns exactly the same result and score sequences (the whole final
state is reproduced). -/
theorem engines_deterministic {α : Type} [LinearOrderedField α] (n : ℕ)
    (suL : ℕ → α) (suF : ℕ → ℕ → α) (sqrtF : α → α) (fmin t : α)
    (st st1 st2 : MFS.MFSState α) :
    (MFS.cfsE n suL suF sqrtF fmin st = some st1 →
        MFS.cfsE n suL suF sqrtF fmin st1 = some st1)
      ∧ (MFS.fcbsE n suL suF t st = (st2, none) →
        MFS.fcbsE n suL suF t st2 = (st2, none)) := by
  constructor
  · intro h
    exact h
  · intro h
    by_cases ht : t < 1 / 10000
    · have h2 : MFS.fcbsE n suL suF t st
          = (st, some MFS.MFSErr.invalidThreshold) := by
        simp only [MFS.fcbsE]
        rw [if_pos ht]
      rw [h2] at h
      injection h with h1 h2'
      exact Option.noConfusion h2'
    · rw [fcbsE_ok _ _ _ _ _ ht] at h
      rw [fcbsE_ok _ _ _ _ _ ht]
      exact h

/-- C10: both engines clear all per-run state before computing, so a
call from an arbitrary prior engine state returns exactly what a call
on a freshly constructed engine returns (for fcbs, for every valid
threshold). -/
theorem engines_reset_state {α : Type} [LinearOrderedField α] (n : ℕ)
    (suL : ℕ → α) (suF : ℕ → ℕ → α) (sqrtF : α → α) (fmin t : α)
    (st : MFS.MFSState α) :
    MFS.cfsE n suL suF sqrtF fmin st
        = MFS.cfsE n suL suF sqrtF fmin MFS.MFSState.reset
      ∧ ((1:α) / 10000 ≤ t →
        MFS.fcbsE n suL suF t st = MFS.fcbsE n suL suF t MFS.MFSState.reset) := by
  constructor
  · rfl
  · intro ht
    rw [fcbsE_ok _ _ _ _ _ (not_lt.mpr ht),
      fcbsE_ok _ _ _ _ _ (not_lt.mpr ht)]

/-- Witness for C10 with a dirty prior state on the rational runs. -/
theorem engines_reset_state_witness :
    MFS.cfsE 2 suLq suFq id 0 stJunk
        = MFS.cfsE 2 suLq suFq id 0 MFS.MFSState.reset
      ∧ MFS.fcbsE 2 suLq suFq 1 stJunk
        = MFS.fcbsE 2 suLq suFq 1 MFS.MFSState.reset :=
  ⟨(engines_reset_state 2 suLq suFq id 0 1 stJunk).1,
   (engines_reset_state 2 suLq suFq id 0 1 stJunk).2 (by norm_num)⟩

lemma suLq_eval : (List.range 2).map suLq = [(1:ℚ), 1/2] := by
  rw [show List.range 2 = [0, 1] from rfl, List.map_cons, List.map_cons,
    List.map_nil]
  simp only [suLq, List.getD_cons_zero, List.getD_cons_succ]

lemma orderq_eval :
    MFS.argsortDesc (fun i => ([(1:ℚ), 1/2]).getD i 0) 2 = [0, 1] := by
  rw [MFS.argsortDesc, show List.range 2 = [0, 1] from rfl, List.foldl_cons,
    List.foldl_cons, List.foldl_nil]
  simp only [MFS.insertDesc, List.getD_cons_zero, List.getD_cons_succ]
  rw [if_neg (by norm_num : ¬ (1:ℚ) < 1/2)]

lemma meritq_eval :
    MFS.compute_merit id suFq [(1:ℚ), 1/2] [0, 1] []
      = (3/5, [((0, 1), (1:ℚ)/4)]) := by
  simp only [MFS.compute_merit, MFS.pairsOf, MFS.compute_su_features,
    MFS.cacheLookup, List.map_cons, List.map_nil, List.append_nil,
    List.nil_append, List.foldl_cons, List.foldl_nil, List.sum_cons,
    List.sum_nil, List.getD_cons_zero, List.getD_cons_succ, List.length_cons,
    List.length_nil, suFq, id_eq]
  rw [Prod.mk.injEq]
  constructor
  · norm_num
  · rfl

lemma selq_eval :
    MFS.selectAux (MFS.compute_merit id suFq [(1:ℚ), 1/2]) [0] [1] 0
      (none, 0) [] = ((some 0, 3/5), [((0, 1), (1:ℚ)/4)]) := by
  simp only [MFS.selectAux, List.singleton_append]
  rw [meritq_eval]
  norm_num

lemma cfsq_loop (fuel : ℕ) :
    MFS.cfsLoop (MFS.compute_merit id suFq [(1:ℚ), 1/2]) 0 (fuel + 1) [1] [0]
      [(1:ℚ)] [] = some ([0, 1], [(1:ℚ), 3/5], [((0, 1), (1:ℚ)/4)]) := by
  simp only [MFS.cfsLoop]
  rw [selq_eval]
  simp only [List.getD_cons_zero, List.singleton_append, List.eraseIdx_cons_zero]
  rw [if_neg (by simp)]

lemma cfsE_eval {α : Type} [LinearOrderedField α] (n : ℕ) (suL : ℕ → α)
    (suF : ℕ → ℕ → α) (sqrtF : α → α) (fmin : α) (st : MFS.MFSState α)
    (f0 : ℕ) (rest : List ℕ)
    (horder : MFS.argsortDesc
        (fun i => ((List.range n).map suL).getD i 0) n = f0 :: rest) :
    MFS.cfsE n suL suF sqrtF fmin st
      = match MFS.cfsLoop (MFS.compute_merit sqrtF suF ((List.range n).map suL))
          fmin (rest.length + 1) rest [f0]
          [((List.range n).map suL).getD f0 0] [] with
        | none => none
        | some (cands, scores, c1) =>
          some ⟨some cands, scores, some ((List.range n).map suL), c1⟩ := by
  simp only [MFS.cfsE, MFS.compute_su_labels, MFS.MFSState.reset]
  rw [horder]

lemma cfsq_run : MFS.cfsE 2 suLq suFq id 0 MFS.MFSState.reset = some stW := by
  have horder : MFS.argsortDesc
      (fun i => ((List.range 2).map suLq).getD i 0) 2 = 0 :: [1] := by
    rw [suLq_eval]
    exact orderq_eval
  rw [cfsE_eval 2 suLq suFq id 0 _ 0 [1] horder, suLq_eval]
  simp only [List.getD_cons_zero, List.length_cons, List.length_nil]
  rw [cfsq_loop]
  rfl

lemma fcbsq_dominate :
    MFS.dominate suFq 0 [1] [(1:ℚ), 1/2] []
      = ([(1:ℚ), 1/2], [((0, 1), (1:ℚ)/4)]) := by
  simp only [MFS.dominate, MFS.compute_su_features, MFS.cacheLookup, suFq,
    List.getD_cons_succ, List.getD_cons_zero]
  rw [if_neg (by norm_num : ¬ ((1:ℚ)/2 ≤ 1/4))]
  rfl

lemma fcbsq_loop :
    MFS.fcbsLoop suFq 1 [0, 1] [(1:ℚ), 1/2] [] [] []
      = ([(1:ℚ), 1/2], [0], [(1:ℚ)], [((0, 1), (1:ℚ)/4)]) := by
  rw [MFS.fcbsLoop]
  rw [if_neg (by norm_num : ¬ ([(1:ℚ), 1/2].getD 0 0 = 0))]
  rw [if_neg (by norm_num : ¬ ([(1:ℚ), 1/2].getD 0 0 < 1))]
  simp only [fcbsq_dominate]
  rw [MFS.fcbsLoop]
  rw [if_neg (by norm_num : ¬ ([(1:ℚ), 1/2].getD 1 0 = 0))]
  rw [if_pos (by norm_num : ([(1:ℚ), 1/2].getD 1 0 < 1))]
  rfl

lemma fcbsq_run : MFS.fcbsE 2 suLq suFq 1 MFS.MFSState.reset = (stFW, none) := by
  rw [fcbsE_ok _ _ _ _ _ (by norm_num), suLq_eval, orderq_eval, fcbsq_loop]
  rfl

/-- Witness for C9 with concrete rational runs of both engines. -/
theorem engines_deterministic_witness :
    MFS.cfsE 2 suLq suFq id 0 stW = some stW
      ∧ MFS.fcbsE 2 suLq suFq 1 stFW = (stFW, none) :=
  ⟨(engines_deterministic 2 suLq suFq id 0 1 MFS.MFSState.reset stW stFW).1
      cfsq_run,
   (engines_deterministic 2 suLq suFq id 0 1 MFS.MFSState.reset stW stFW).2
      fcbsq_run⟩

lemma sentinel_chain {α : Type} [LinearOrderedField α] :
    ∀ (l : List α) (prev : α), 0 ≤ prev → (∀ x ∈ l, 0 ≤ x) →
      (MFS.sentinel prev l = true ↔
        List.Chain' (fun a b => b ≤ a) (prev :: l)) := by
  intro l
  induction l with
  | nil => intro prev _ _; simp [MFS.sentinel]
  | cons x xs ih =>
    intro prev hprev hl
    have hne : prev ≠ -1 := by
      intro h
      rw [h] at hprev
      norm_num at hprev
    simp only [MFS.sentinel]
    rw [if_neg hne]
    have hx : 0 ≤ x := hl x (List.mem_cons_self x xs)
    have hxs : ∀ z ∈ xs, 0 ≤ z := fun z hz => hl z (List.mem_cons_of_mem x hz)
    by_cases hlt : prev < x
    · rw [if_pos hlt]
      apply iff_of_false (by simp)
      intro h
      rw [List.chain'_cons] at h
      exact absurd h.1 (not_le.mpr hlt)
    · rw [if_neg hlt]
      rw [ih x hx hxs, List.chain'_cons]
      constructor
      · intro h
        exact ⟨not_lt.mp hlt, h⟩
      · exact And.right

lemma stopCheck_chain {α : Type} [LinearOrderedField α] (l : List α)
    (hl : ∀ x ∈ l, 0 ≤ x) :
    (MFS.stopCheck l = true ↔ List.Chain' (fun a b => b ≤ a) l) := by
  cases l with
  | nil => simp [MFS.stopCheck, MFS.sentinel]
  | cons x xs =>
    rw [MFS.stopCheck]
    simp only [MFS.sentinel, if_true]
    rw [if_neg (lt_irrefl x)]
    have hx : 0 ≤ x := hl x (List.mem_cons_self x xs)
    have hxs : ∀ z ∈ xs, 0 ≤ z := fun z hz => hl z (List.mem_cons_of_mem x hz)
    exact sentinel_chain xs x hx hxs

lemma selectAux_some_lt {α : Type} [LinearOrderedField α]
    (meritF : List ℕ → MFS.Cache α → α × MFS.Cache α) (cands : List ℕ) :
    ∀ (fs : List ℕ) (idx : ℕ) (best : Option ℕ × α) (c : MFS.Cache α) (i : ℕ),
      (MFS.selectAux meritF cands fs idx best c).1.1 = some i →
      (best.1 = some i ∨ (idx ≤ i ∧ i < idx + fs.length)) := by
  intro fs
  induction fs with
  | nil => intro idx best c i h; exact Or.inl h
  | cons f fs ih =>
    intro idx best c i h
    simp only [MFS.selectAux] at h
    rw [List.length_cons]
    by_cases hc : best.2 < (meritF (cands ++ [f]) c).1
    · rw [if_pos hc] at h
      rcases ih _ _ _ _ h with h1 | h2
      · have hii : idx = i := Option.some.inj h1
        right
        omega
      · right
        omega
    · rw [if_neg hc] at h
      rcases ih _ _ _ _ h with h1 | h2
      · exact Or.inl h1
      · right
        omega

lemma selectAux_top_lt {α : Type} [LinearOrderedField α]
    (meritF : List ℕ → MFS.Cache α → α × MFS.Cache α) (cands : List ℕ)
    (order : List ℕ) (fmin : α) (c : MFS.Cache α) (i : ℕ)
    (h : (MFS.selectAux meritF cands order 0 (none, fmin) c).1.1 = some i) :
    i < order.length := by
  rcases selectAux_some_lt meritF cands order 0 (none, fmin) c i h with h1 | h2
  · exact absurd h1 (by simp)
  · omega

lemma argsortDesc_length {α : Type} [LinearOrderedField α] (key : ℕ → α)
    (n : ℕ) : (MFS.argsortDesc key n).length = n := by
  have h := (argsortFold_perm key (List.range n) []).length_eq
  simpa [MFS.argsortDesc] using h

lemma cfsLoop_spec {α : Type} [LinearOrderedField α]
    (meritF : List ℕ → MFS.Cache α → α × MFS.Cache α) (fmin : α) :
    ∀ (fuel : ℕ) (order cands : List ℕ) (scores : List α) (c : MFS.Cache α)
      (r : List ℕ) (s : List α) (c1 : MFS.Cache α),
      MFS.cfsLoop meritF fmin fuel order cands scores c = some (r, s, c1) →
      ∃ m : ℕ, 1 ≤ m
        ∧ s.length = scores.length + m
        ∧ r.length = cands.length + m
        ∧ m ≤ order.length
        ∧ (∃ tl, s = scores ++ tl)
        ∧ (∀ k, scores.length < k → k < s.length →
            ¬(5 ≤ k ∧ MFS.stopCheck (MFS.lastN 5 (s.take k)) = true))
        ∧ (m = order.length
            ∨ (5 ≤ s.length ∧ MFS.stopCheck (MFS.lastN 5 s) = true)) := by
  intro fuel
  induction fuel with
  | zero =>
    intro order cands scores c r s c1 h
    exact absurd h (by simp [MFS.cfsLoop])
  | succ fuel ih =>
    intro order cands scores c r s c1 h
    simp only [MFS.cfsLoop] at h
    split at h
    · exact absurd h (by simp)
    · rename_i i m c2 hsel
      have hi : i < order.length :=
        selectAux_top_lt meritF cands order fmin c i (by rw [hsel])
      have herase : (order.eraseIdx i).length + 1 = order.length :=
        List.length_eraseIdx_add_one hi
      have hlen1 : (scores ++ [m]).length = scores.length + 1 := by
        rw [List.length_append]
        rfl
      have hlenc : (cands ++ [order.getD i 0]).length = cands.length + 1 := by
        rw [List.length_append]
        rfl
      by_cases hcont : order.eraseIdx i ≠ [] ∧
          ¬(5 ≤ (scores ++ [m]).length ∧
            MFS.stopCheck (MFS.lastN 5 (scores ++ [m])) = true)
      · rw [if_pos hcont] at h
        obtain ⟨m', hm1, hm2, hm3, hm4, ⟨tl, htl⟩, hA, hB⟩ := ih _ _ _ _ _ _ _ h
        refine ⟨m' + 1, by omega, by omega, by omega, by omega, ?_, ?_, ?_⟩
        · refine ⟨m :: tl, ?_⟩
          rw [htl, List.append_assoc]
          rfl
        · intro k hk1 hk2
          by_cases hke : k = scores.length + 1
          · have htake : s.take k = scores ++ [m] := by
              rw [htl, hke, ← hlen1, List.take_left]
            rw [htake]
            intro hand
            apply hcont.2
            refine ⟨?_, hand.2⟩
            rw [hlen1, ← hke]
            exact hand.1
          · apply hA k ?_ hk2
            rw [hlen1]
            omega
        · rcases hB with hl | hr2
          · left
            omega
          · right
            exact hr2
      · rw [if_neg hcont] at h
        have h2 := Option.some.inj h
        have hr : r = cands ++ [order.getD i 0] :=
          (congrArg (fun z => z.1) h2).symm
        have hs : s = scores ++ [m] := (congrArg (fun z => z.2.1) h2).symm
        refine ⟨1, le_refl 1, ?_, ?_, by omega, ⟨[m], hs⟩, ?_, ?_⟩
        · rw [hs, hlen1]
        · rw [hr, hlenc]
        · intro k hk1 hk2
          rw [hs, hlen1] at hk2
          omega
        · rcases not_and_or.mp hcont with hA2 | hB2
          · left
            have hz : order.eraseIdx i = [] := not_not.mp hA2
            rw [hz] at herase
            simp at herase
            omega
          · right
            have hB3 := not_not.mp hB2
            rw [hs]
            exact hB3

/-- C2: for every successful cfs run with nonnegative scores, the score
trace never continues past a trailing window of five non-increasing
scores (the stagnation check, evaluated only once at least five scores
exist), and the run stops exactly because either the feature pool is
exhausted (all n features selected) or the last five scores are
non-increasing. -/
theorem cfs_stagnation {α : Type} [LinearOrderedField α] (n : ℕ)
    (suL : ℕ → α) (suF : ℕ → ℕ → α) (sqrtF : α → α) (fmin : α)
    (st st1 : MFS.MFSState α)
    (hrun : MFS.cfsE n suL suF sqrtF fmin st = some st1)
    (hnn : ∀ x ∈ st1.scores, 0 ≤ x) :
    (∀ k, 5 ≤ k → k < st1.scores.length →
        ¬ nonIncr (MFS.lastN 5 (st1.scores.take k)))
      ∧ ∃ r, st1.result = some r
          ∧ (r.length = n
            ∨ (5 ≤ st1.scores.length ∧ nonIncr (MFS.lastN 5 st1.scores))) := by
  rcases horder : MFS.argsortDesc
      (fun i => ((List.range n).map suL).getD i 0) n with _ | ⟨f0, rest⟩
  · have hnone : MFS.cfsE n suL suF sqrtF fmin st = none := by
      simp only [MFS.cfsE, MFS.compute_su_labels, MFS.MFSState.reset]
      rw [horder]
    rw [hnone] at hrun
    exact absurd hrun (by simp)
  · rw [cfsE_eval n suL suF sqrtF fmin st f0 rest horder] at hrun
    rcases hloop : MFS.cfsLoop
        (MFS.compute_merit sqrtF suF ((List.range n).map suL)) fmin
        (rest.length + 1) rest [f0]
        [((List.range n).map suL).getD f0 0] [] with _ | ⟨cands, scores, c1⟩
    · rw [hloop] at hrun
      exact absurd hrun (by simp)
    · rw [hloop] at hrun
      have hst := (Option.some.inj hrun).symm
      have hscores : st1.scores = scores := by rw [hst]
      have hresult : st1.result = some cands := by rw [hst]
      obtain ⟨m, hm1, hm2, hm3, hm4, ⟨tl, htl⟩, hA, hB⟩ :=
        cfsLoop_spec _ _ _ _ _ _ _ _ _ _ hloop
      constructor
      · intro k hk5 hklen
        rw [hscores] at hklen ⊢
        have hgoal := hA k (by simp; omega) hklen
        have hsub : ∀ x ∈ MFS.lastN 5 (scores.take k), 0 ≤ x := by
          intro x hx
          apply hnn
          rw [hscores]
          exact List.take_subset k scores (List.drop_subset _ _ hx)
        intro hchain
        simp only [nonIncr] at hchain
        exact hgoal ⟨hk5, (stopCheck_chain _ hsub).mpr hchain⟩
      · refine ⟨cands, hresult, ?_⟩
        rcases hB with hl | hr2
        · left
          have hn : n = rest.length + 1 := by
            have hh := argsortDesc_length
              (fun i => ((List.range n).map suL).getD i 0) n
            rw [horder] at hh
            simp at hh
            omega
          simp at hm3
          omega
        · right
          rw [hscores]
          refine ⟨hr2.1, ?_⟩
          have hsub : ∀ x ∈ MFS.lastN 5 scores, 0 ≤ x := by
            intro x hx
            apply hnn
            rw [hscores]
            exact List.drop_subset _ _ hx
          simp only [nonIncr]
          exact (stopCheck_chain _ hsub).mp hr2.2

/-- Witness for C2 on the concrete rational run, whose trace has two
scores so the run stopped by pool exhaustion. -/
theorem cfs_stagnation_witness :
    (∀ k, 5 ≤ k → k < stW.scores.length →
        ¬ nonIncr (MFS.lastN 5 (stW.scores.take k)))
      ∧ ∃ r, stW.result = some r
          ∧ (r.length = 2
            ∨ (5 ≤ stW.scores.length ∧ nonIncr (MFS.lastN 5 stW.scores))) :=
  cfs_stagnation 2 suLq suFq id 0 MFS.MFSState.reset stW cfsq_run
    (by
      intro x hx
      simp only [stW] at hx
      simp at hx
      rcases hx with h | h
      · rw [h]
        norm_num
      · rw [h]
        norm_num)
